import Mathlib

/-!
Shallow embedding of `cebra/datasets/hippocampus.py`: a rat hippocampus
recording (neural spike-count rows plus (position, direction) behavior
labels), the trial-based 3-fold nested cross-validation split performed by
`SingleRatTrialSplitDataset._split`, the neighbor-count sweep of
`SingleRatDataset.decode`, and the label shuffling of
`SingleRatCorruptDataset.__init__`.

Rows of the neural tensor are abstract values of a type `α`; behavior rows
are pairs `(position, direction)` with an abstract position type `β` and an
integer-coded direction (the data stores ±1).
-/

/-- A loaded recording: `data["spikes"]` as a list of neural rows and
`data["position"]` as a list of (position, direction) behavior rows. -/
structure Recording (α β : Type) where
  neural : List α
  index : List (β × Int)
deriving Repr, DecidableEq

/-- Python slice `l[a:b]` (for `a ≤ b`): rows with positions in `[a, b)`. -/
def pySlice (l : List γ) (a b : Nat) : List γ :=
  (l.take b).drop a

/-- `np.where(index[1:, 1] != index[:-1, 1])[0]`: positions `i` where the
direction column changes between consecutive steps (`d[i+1] ≠ d[i]`). -/
def direction_change_idx (d : List Int) : List Nat :=
  (List.range (d.length - 1)).filter (fun i => d.getD (i + 1) 0 != d.getD i 0)

/-- NumPy slice `l[1::2]`: every second element starting at offset 1. -/
def oddIdx : List γ → List γ
  | [] => []
  | [_] => []
  | _ :: b :: rest => b :: oddIdx rest

/-- `np.append(np.insert(direction_change_idx[1::2], 0, 0), len(index))`:
the trial-boundary list (0, then every second direction change starting at
offset 1, then the recording length). -/
def trial_change_idx (r : Recording α β) : List Nat :=
  0 :: (oddIdx (direction_change_idx (r.index.map Prod.snd)) ++ [r.index.length])

/-- `total_trials_num = len(trial_change_idx) - 1`. -/
def total_trials_num (r : Recording α β) : Nat :=
  (trial_change_idx r).length - 1

/-- Sizes of the sections produced by `np.array_split` of a length-`L`
array into `k` sections: `L % k` sections of size `L / k + 1` followed by
sections of size `L / k`. -/
def np_array_split_sizes (L k : Nat) : List Nat :=
  (List.range k).map (fun i => if i < L % k then L / k + 1 else L / k)

/-- Cut a list into consecutive chunks of the given sizes. -/
def splitBySizes : List Nat → List γ → List (List γ)
  | [], _ => []
  | s :: rest, l => l.take s :: splitBySizes rest (l.drop s)

/-- `np.array_split(l, k)`: `k` consecutive sections of near-equal size,
leftover elements going to the earliest sections. -/
def np_array_split (l : List γ) (k : Nat) : List (List γ) :=
  splitBySizes (np_array_split_sizes l.length k) l

/-- `np.array_split(l, 2)` as the pair of its two sections. -/
def np_array_split2 (l : List γ) : List γ × List γ :=
  ((np_array_split l 2).getD 0 [], (np_array_split l 2).getD 1 [])

/-- `list(sklearn.model_selection.KFold(n_splits=3, shuffle=False).split(l))`:
the three (train-part, test-part) pairs of an unshuffled 3-fold CV over the
elements of `l` (positional indexing into `l` composed away: the test part
of pair `i` is the `i`-th of three consecutive near-equal sections, the
train part is everything else in original order).  Raises when the number
of samples is smaller than the number of splits, as sklearn does. -/
def kfold_pairs (l : List γ) : Except String (List (List γ × List γ)) :=
  if l.length < 3 then
    .error ("Cannot have number of splits n_splits=3 greater than the number of samples: n_samples=" ++ toString l.length ++ ".")
  else
    .ok ((List.range 3).map (fun i =>
      (((np_array_split l 3).take i).flatten ++ ((np_array_split l 3).drop (i + 1)).flatten,
        (np_array_split l 3).getD i [])))

/-- `np.array_split(np.arange(total_trials_num), 3)`: the three outer folds
of trial indices. -/
def outer_folds (T : Nat) : List (List Nat) :=
  np_array_split (List.range T) 3

/-- The accumulation loop of `_split`: for each outer fold, take the
`split_no`-th (train, val_test) pair of the inner unshuffled 3-fold CV,
bisect the val_test part with `np.array_split(·, 2)` into (test, valid),
and extend the accumulated (train_trials, valid_trials, test_trials). -/
def accumulate_splits (splitNo : Nat) : List (List Nat) → Except String (List Nat × List Nat × List Nat)
  | [] => .ok ([], [], [])
  | fold :: rest =>
    match kfold_pairs fold with
    | .error e => .error e
    | .ok pairs =>
      let tr := (pairs.getD splitNo ([], [])).1
      let vt := (pairs.getD splitNo ([], [])).2
      let te := (np_array_split2 vt).1
      let va := (np_array_split2 vt).2
      match accumulate_splits splitNo rest with
      | .error e => .error e
      | .ok (trs, vas, tes) => .ok (tr ++ trs, va ++ vas, te ++ tes)

/-- The accumulated (train, valid, test) trial lists, defaulting to empty
lists when the inner cross-validation fails. -/
def split_lists (T splitNo : Nat) : List Nat × List Nat × List Nat :=
  (accumulate_splits splitNo (outer_folds T)).toOption.getD ([], [], [])

/-- The names accepted by `_split` according to its docstring. -/
def validSplitNames : List String := ["train", "valid", "test", "all", "wo_test"]

/-- The `ValueError` message of `_split` (source lines 154-156). -/
def invalidSplitMsg (name : String) : String :=
  "\x27" ++ name ++ "\x27 is not a valid split. Use \x27train\x27, \x27valid\x27 or \x27test\x27"

/-- Modelled from the spec: the `if split == ... / elif` dispatch lines of
`SingleRatTrialSplitDataset._split` are missing from the source snapshot
(only the five assignments to `trials`, source lines 148-152, and the
`raise ValueError` remain); the mapping from each split name to its
assignment follows the resolution step of the spec: "train"→train list,
"valid"→valid list, "test"→test list, "all"→`np.arange(total_trials_num)`,
"wo_test"→`np.concatenate([train_trials, valid_trials])`, anything else
raises the `ValueError` of source lines 154-156. -/
def resolveSplitName (name : String) (train valid test : List Nat) (T : Nat) :
    Except String (List Nat) :=
  if name = "train" then .ok train
  else if name = "valid" then .ok valid
  else if name = "test" then .ok test
  else if name = "all" then .ok (List.range T)
  else if name = "wo_test" then .ok (train ++ valid)
  else .error (invalidSplitMsg name)

/-- Concatenate the row segments of the selected trials, in the order the
trial indices are listed (`torch.cat([x[b[i]:b[i+1]] for i in trials])`). -/
def gatherTrials (l : List γ) (bs : List Nat) (trials : List Nat) : List γ :=
  (trials.map (fun i => pySlice l (bs.getD i 0) (bs.getD (i + 1) 0))).flatten

/-- `np.cumsum` of a list of naturals. -/
def cumsum (l : List Nat) : List Nat :=
  (List.range l.length).map (fun j => (l.take (j + 1)).sum)

/-- `cumulated_len[:-1][np.array(trials[:-1]) + 1 != trials[1:]]`: the
cumulative concatenated-segment lengths at the positions where the selected
trial-index sequence is non-consecutive.  (`zip` truncates to the common
length, which is exactly the `[:-1]` of the source.) -/
def concat_idx_of (bs : List Nat) (trials : List Nat) : List Nat :=
  let lens := trials.map (fun i => bs.getD (i + 1) 0 - bs.getD i 0)
  (((cumsum lens).zip (trials.zip trials.tail)).filter
      (fun p => p.2.1 + 1 != p.2.2)).map Prod.fst

/-- The outcome of a successful `_split`: the reassembled tensors, the
discontinuity offsets `concat_idx`, and the selected trial list (the
selected_indices attribute of the source, kept as trial indices). -/
structure SplitOut (α β : Type) where
  neural : List α
  index : List (β × Int)
  concat_idx : List Nat
  selected : List Nat
deriving Repr, DecidableEq

/-- `SingleRatTrialSplitDataset._split(split)`: parse trials, build outer
folds, run the inner unshuffled 3-fold CV per fold, resolve the split name,
and reassemble the tensors.  Errors (the sklearn n_splits check, the
`ValueError` for an unknown name, and `torch.cat` on an empty selection)
abort before any tensor is reassembled. -/
def Recording.splitRun (r : Recording α β) (splitNo : Nat) (name : String) :
    Except String (SplitOut α β) :=
  let bs := trial_change_idx r
  let T := total_trials_num r
  match accumulate_splits splitNo (outer_folds T) with
  | .error e => .error e
  | .ok (tr, va, te) =>
    match resolveSplitName name tr va te T with
    | .error e => .error e
    | .ok trials =>
      if trials.isEmpty then
        .error "torch.cat(): expected a non-empty list of Tensors"
      else
        .ok { neural := gatherTrials r.neural bs trials,
              index := gatherTrials r.index bs trials,
              concat_idx := concat_idx_of bs trials,
              selected := trials }

/-- The mutation behavior of `_split` on the stored tensors: on success the
`self.neural` / `self.index` assignments run; the `raise` paths leave the
recording unmodified and propagate the message. -/
def Recording.applySplit (r : Recording α β) (splitNo : Nat) (name : String) :
    Recording α β × Option String :=
  match r.splitRun splitNo name with
  | .error e => (r, some e)
  | .ok s => ({ neural := s.neural, index := s.index }, none)

/-- The variable `val_test_trial` of the source for the selected inner-CV pair. -/
def val_test_trial (pairs : List (List Nat × List Nat)) (n : Nat) : List Nat :=
  (pairs.getD n ([], [])).2

/-- The variable `train_trial` of the source for the selected inner-CV pair. -/
def train_trial (pairs : List (List Nat × List Nat)) (n : Nat) : List Nat :=
  (pairs.getD n ([], [])).1

/-- `np.linspace(1, 10, 6, dtype=int)`: the `k`-th evenly spaced value is
`1 + 1.8k = (5 + 9k)/5` exactly, and the `dtype=int` conversion truncates
it toward zero, which for these nonnegative values is the integer division
`(5 + 9k) / 5`.  (None of the intermediate floats is close enough to an
integer for the binary rounding of `linspace` to change the truncation.) -/
def linspace_int : List Int :=
  (List.range 6).map (fun k => (5 + 9 * (k : Int)) / 5)

/-- `nn = np.power(np.linspace(1, 10, 6, dtype=int), 2)` in
`SingleRatDataset.decode` (source line 81). -/
def decode_nn : List Int := linspace_int.map (fun n => n ^ 2)

/-- Insert into an ascending list (helper for the median). -/
def insertAsc (x : ℚ) : List ℚ → List ℚ
  | [] => [x]
  | y :: ys => if x ≤ y then x :: y :: ys else y :: insertAsc x ys

/-- Insertion sort, ascending (helper for the median). -/
def sortAsc : List ℚ → List ℚ
  | [] => []
  | x :: xs => insertAsc x (sortAsc xs)

/-- `np.median`: middle element of the sorted data (odd length) or the mean
of the two middle elements (even length). -/
def np_median (l : List ℚ) : ℚ :=
  if l.length % 2 = 1 then (sortAsc l).getD (l.length / 2) 0
  else ((sortAsc l).getD (l.length / 2 - 1) 0 + (sortAsc l).getD (l.length / 2) 0) / 2

/-- `SingleRatDataset.decode`: the kNN fit/predict/score calls are external
sklearn computations, abstracted as the `predict` and `score` arguments;
for each `n` in `decode_nn` the metric dict gains
`n{n}_err = np.median(abs(pred[:, 0] - y_test[:, 0]))` and `n{n}_r2 = score`. -/
def decode (predict : Int → List (List ℚ)) (score : Int → ℚ)
    (y_test : List (List ℚ)) : List (String × ℚ) :=
  decode_nn.flatMap (fun n =>
    [("n" ++ toString n ++ "_err",
        np_median (List.zipWith (fun p y => |p.getD 0 0 - y.getD 0 0|) (predict n) y_test)),
      ("n" ++ toString n ++ "_r2", score n)])

/-- One step of a 64-bit LCG, standing in for the PCG64 stream of
`np.random.Generator(np.random.PCG64(seed))`.  The surrounding code relies
only on the stream being a deterministic function of the seed; the exact
PCG64 output sequence is not modelled. -/
def rngStep (s : Nat) : Nat :=
  (6364136223846793005 * s + 1442695040888963407) % (2 ^ 64)

/-- Fisher-Yates selection shuffle driven by `rngStep` (the algorithm
behind `Generator.shuffle`): repeatedly draw a position in the remaining
pool and emit that element; `fuel` bounds the recursion by the pool size. -/
def drawAll (fuel : Nat) (s : Nat) (pool : List Nat) : List Nat :=
  match fuel, pool with
  | 0, _ => []
  | _, [] => []
  | f + 1, p => p.getD (s % p.length) 0 :: drawAll f (rngStep s) (p.eraseIdx (s % p.length))

/-- The shuffled `np.arange(n)` produced by `rng.shuffle(shuffled_index)`. -/
def np_shuffled_range (seed n : Nat) : List Nat :=
  drawAll n (rngStep seed) (List.range n)

/-- `SingleRatCorruptDataset.__init__`: shuffle `np.arange(len(self.index))`
with the seeded generator, then gather `self.index = self.index[shuffled_index]`;
`self.neural` is not touched. -/
def corruptDataset [Inhabited β] (r : Recording α β) (seed : Nat) : Recording α β :=
  { neural := r.neural,
    index := (np_shuffled_range seed r.index.length).map (fun i => r.index.getD i default) }

/-- An alternating-direction recording of length `n`: its behavior column
flips sign at every step, giving one short first trial and two-step trials
after it. -/
def rcAlt (n : Nat) : Recording Nat Int :=
  ⟨List.range n, (List.range n).map (fun i => ((0 : Int), if i % 2 = 0 then 1 else -1))⟩

/-- A 17-step alternating recording: 9 trials, outer folds of 3 trials. -/
def rc17 : Recording Nat Int := rcAlt 17

/-- A 35-step alternating recording: 18 trials, outer folds of 6 trials. -/
def rc35 : Recording Nat Int := rcAlt 35

/-- A one-step recording: a single trial, too few for the inner 3-fold CV. -/
def rcTiny : Recording Nat Int := ⟨[0], [((0 : Int), (1 : Int))]⟩

/-- The direction column of the concrete scenario of the spec
`[+1,+1,-1,-1,+1,+1,-1]`, as a 7-step recording. -/
def rc7 : Recording Nat Int :=
  ⟨List.range 7,
    [((0 : Int), 1), ((0 : Int), 1), ((0 : Int), -1), ((0 : Int), -1),
      ((0 : Int), 1), ((0 : Int), 1), ((0 : Int), -1)]⟩

/-- The inner-CV pairs of a 3-element fold (for witnesses). -/
def kp3 : List (List Nat × List Nat) :=
  [([1, 2], [0]), ([0, 2], [1]), ([0, 1], [2])]

/-- The output of `rc17.splitRun 0 "all"`. -/
def out17all : SplitOut Nat Int :=
  ⟨List.range 17, (List.range 17).map (fun i => ((0 : Int), if i % 2 = 0 then 1 else -1)),
    [], List.range 9⟩

/-- The output of `rc17.splitRun 0 "test"`. -/
def out17test : SplitOut Nat Int :=
  ⟨[0, 5, 6, 11, 12],
    [((0 : Int), 1), ((0 : Int), -1), ((0 : Int), 1), ((0 : Int), -1), ((0 : Int), 1)],
    [1, 3], [0, 3, 6]⟩

/-! ### Structure of `np.array_split` and the inner `KFold` -/

lemma splitBySizes_flatten (sizes : List Nat) (l : List γ) :
    (splitBySizes sizes l).flatten = l.take sizes.sum := by
  induction sizes generalizing l with
  | nil => simp [splitBySizes]
  | cons s rest ih => simp [splitBySizes, ih, List.sum_cons, List.take_add]

lemma splitBySizes_length (sizes : List Nat) (l : List γ) :
    (splitBySizes sizes l).length = sizes.length := by
  induction sizes generalizing l with
  | nil => rfl
  | cons s rest ih => simp [splitBySizes, ih]

lemma splitBySizes_map_length (sizes : List Nat) (l : List γ)
    (h : sizes.sum ≤ l.length) :
    (splitBySizes sizes l).map List.length = sizes := by
  induction sizes generalizing l with
  | nil => rfl
  | cons s rest ih =>
    simp only [List.sum_cons] at h
    simp only [splitBySizes, List.map_cons, List.length_take]
    congr 1
    · omega
    · exact ih (l.drop s) (by rw [List.length_drop]; omega)

lemma np_array_split_sizes_three (L : Nat) :
    np_array_split_sizes L 3 =
      [if 0 < L % 3 then L / 3 + 1 else L / 3,
       if 1 < L % 3 then L / 3 + 1 else L / 3,
       if 2 < L % 3 then L / 3 + 1 else L / 3] := by
  simp [np_array_split_sizes, List.range_succ]

lemma np_array_split_sizes_three_sum (L : Nat) :
    (np_array_split_sizes L 3).sum = L := by
  rw [np_array_split_sizes_three]
  simp only [List.sum_cons, List.sum_nil]
  split_ifs <;> omega

lemma np_array_split3_flatten (l : List γ) : (np_array_split l 3).flatten = l := by
  unfold np_array_split
  rw [splitBySizes_flatten, np_array_split_sizes_three_sum, List.take_length]

lemma np_array_split3_length (l : List γ) : (np_array_split l 3).length = 3 := by
  unfold np_array_split
  rw [splitBySizes_length, np_array_split_sizes_three]
  rfl

lemma np_array_split3_map_length (l : List γ) :
    (np_array_split l 3).map List.length = np_array_split_sizes l.length 3 :=
  splitBySizes_map_length _ _ (by rw [np_array_split_sizes_three_sum])

lemma getD_map_length (xs : List (List γ)) (n : Nat) (h : n < xs.length) :
    (xs.map List.length).getD n 0 = (xs.getD n []).length := by
  rw [List.getD_eq_getElem _ _ (by simpa using h), List.getD_eq_getElem _ _ h,
    List.getElem_map]

lemma np_array_split3_getD_length (l : List γ) (n : Nat) (hn : n < 3) :
    ((np_array_split l 3).getD n []).length =
      (if n < l.length % 3 then l.length / 3 + 1 else l.length / 3) := by
  have h1 : ((np_array_split l 3).map List.length).getD n 0 =
      ((np_array_split l 3).getD n []).length :=
    getD_map_length _ _ (by rw [np_array_split3_length]; exact hn)
  rw [← h1, np_array_split3_map_length, np_array_split_sizes_three]
  interval_cases n <;> simp

lemma np_array_split2_eq (l : List γ) :
    np_array_split2 l =
      (l.take ((l.length + 1) / 2), l.drop ((l.length + 1) / 2)) := by
  have hs : np_array_split_sizes l.length 2 = [(l.length + 1) / 2, l.length / 2] := by
    simp only [np_array_split_sizes, List.range_succ, List.range_zero,
      List.nil_append, List.map_cons, List.map_nil, List.cons_append,
      List.cons.injEq, and_true]
    have h2 := Nat.mod_lt l.length (show 0 < 2 by norm_num)
    constructor
    · split_ifs <;> omega
    · split_ifs <;> omega
  unfold np_array_split2 np_array_split
  rw [hs]
  simp only [splitBySizes, List.getD_cons_zero, List.getD_cons_succ]
  rw [Prod.mk.injEq]
  exact ⟨rfl, by rw [List.take_of_length_le (by rw [List.length_drop]; omega)]⟩

lemma kfold_pairs_ok_len (l : List γ) (pairs : List (List γ × List γ))
    (hk : kfold_pairs l = .ok pairs) : ¬ l.length < 3 := by
  intro h
  simp [kfold_pairs, h] at hk

lemma kfold_getD (l : List γ) (n : Nat) (hn : n < 3)
    (pairs : List (List γ × List γ)) (hk : kfold_pairs l = .ok pairs) :
    pairs.getD n ([], []) =
      (((np_array_split l 3).take n).flatten ++ ((np_array_split l 3).drop (n + 1)).flatten,
        (np_array_split l 3).getD n []) := by
  have h := kfold_pairs_ok_len l pairs hk
  simp only [kfold_pairs, h, if_false, Except.ok.injEq] at hk
  subst hk
  interval_cases n <;> rfl

lemma kfold_pair_perm [DecidableEq γ] (l : List γ) (n : Nat) (hn : n < 3)
    (pairs : List (List γ × List γ)) (hk : kfold_pairs l = .ok pairs) :
    ((pairs.getD n ([], [])).1 ++ (pairs.getD n ([], [])).2).Perm l := by
  rw [kfold_getD l n hn pairs hk]
  obtain ⟨c0, c1, c2, hc⟩ := List.length_eq_three.mp (np_array_split3_length l)
  have hl : c0 ++ (c1 ++ c2) = l := by
    have h0 := np_array_split3_flatten l
    rw [hc] at h0
    simpa using h0
  rw [hc, List.perm_iff_count]
  intro a
  have h2 := congrArg (List.count a) hl
  simp only [List.count_append] at h2
  interval_cases n <;>
    simp only [List.take_succ_cons, List.take_zero, List.drop_succ_cons,
      List.drop_zero, List.drop_nil, List.take_nil, List.flatten_cons, List.flatten_nil,
      List.getD_cons_zero, List.getD_cons_succ, List.count_append, List.count_nil,
      List.append_nil, List.nil_append] <;>
    omega

/-! ### The accumulation loop: partition of the trial range -/

lemma accumulate_splits_cons_inv (splitNo : Nat) (fold : List Nat)
    (rest : List (List Nat)) (tr va te : List Nat)
    (h : accumulate_splits splitNo (fold :: rest) = .ok (tr, va, te)) :
    ∃ pairs trs vas tes,
      kfold_pairs fold = .ok pairs ∧
      accumulate_splits splitNo rest = .ok (trs, vas, tes) ∧
      tr = (pairs.getD splitNo ([], [])).1 ++ trs ∧
      va = (np_array_split2 (pairs.getD splitNo ([], [])).2).2 ++ vas ∧
      te = (np_array_split2 (pairs.getD splitNo ([], [])).2).1 ++ tes := by
  simp only [accumulate_splits] at h
  cases hk : kfold_pairs fold with
  | error e => rw [hk] at h; simp at h
  | ok pairs =>
    rw [hk] at h
    cases hr : accumulate_splits splitNo rest with
    | error e => rw [hr] at h; simp at h
    | ok tvte =>
      obtain ⟨trs, vas, tes⟩ := tvte
      rw [hr] at h
      simp only [Except.ok.injEq, Prod.mk.injEq] at h
      exact ⟨pairs, trs, vas, tes, rfl, rfl, h.1.symm, h.2.1.symm, h.2.2.symm⟩

lemma accumulate_splits_perm (splitNo : Nat) (hn : splitNo < 3) :
    ∀ (folds : List (List Nat)) (tr va te : List Nat),
      accumulate_splits splitNo folds = .ok (tr, va, te) →
      (tr ++ va ++ te).Perm folds.flatten := by
  intro folds
  induction folds with
  | nil =>
    intro tr va te h
    simp only [accumulate_splits, Except.ok.injEq, Prod.mk.injEq] at h
    obtain ⟨h1, h2, h3⟩ := h
    subst h1; subst h2; subst h3
    simp
  | cons fold rest ih =>
    intro tr va te h
    obtain ⟨pairs, trs, vas, tes, hk, hrest, htr, hva, hte⟩ :=
      accumulate_splits_cons_inv _ _ _ _ _ _ h
    subst htr; subst hva; subst hte
    have hfold := kfold_pair_perm fold splitNo hn pairs hk
    have hih := ih trs vas tes hrest
    have hvt : (np_array_split2 (pairs.getD splitNo ([], [])).2).1 ++
        (np_array_split2 (pairs.getD splitNo ([], [])).2).2 =
        (pairs.getD splitNo ([], [])).2 := by
      rw [np_array_split2_eq]
      exact List.take_append_drop _ _
    rw [List.perm_iff_count]
    intro a
    have h1 := (List.perm_iff_count.mp hfold) a
    have h2 := (List.perm_iff_count.mp hih) a
    have h3 := congrArg (List.count a) hvt
    simp only [List.count_append, List.flatten_cons] at h1 h2 h3 ⊢
    omega

lemma outer_folds_flatten (T : Nat) : (outer_folds T).flatten = List.range T := by
  unfold outer_folds
  rw [np_array_split3_flatten]

lemma outer_folds_len (T : Nat) : (outer_folds T).length = 3 := by
  unfold outer_folds
  rw [np_array_split3_length]

lemma outer_folds_sizes (T : Nat) :
    (outer_folds T).map List.length =
      [if 0 < T % 3 then T / 3 + 1 else T / 3,
       if 1 < T % 3 then T / 3 + 1 else T / 3,
       if 2 < T % 3 then T / 3 + 1 else T / 3] := by
  unfold outer_folds
  rw [np_array_split3_map_length, List.length_range, np_array_split_sizes_three]

/-- C3 (amended): for a fold_index in {0,1,2}, whenever the inner 3-fold
cross-validation of `_split` succeeds (every outer fold has at least 3
trials), the accumulated train/valid/test trial lists are pairwise disjoint
and together are a permutation of the full trial range `[0, trial_count)`
(each trial in exactly one list), and the 3 outer folds are contiguous
blocks (their concatenation is the ascending trial range) whose sizes
differ by at most 1 with leftover trials in the earliest folds. -/
theorem C3_partition (r : Recording α β) (n : Nat) (hn : n < 3)
    (tr va te : List Nat)
    (hacc : accumulate_splits n (outer_folds (total_trials_num r)) = .ok (tr, va, te)) :
    (tr ++ va ++ te).Perm (List.range (total_trials_num r)) ∧
    tr.Disjoint va ∧ tr.Disjoint te ∧ va.Disjoint te ∧
    (outer_folds (total_trials_num r)).length = 3 ∧
    (outer_folds (total_trials_num r)).flatten = List.range (total_trials_num r) ∧
    (∀ L ∈ (outer_folds (total_trials_num r)).map List.length,
        total_trials_num r / 3 ≤ L ∧ L ≤ total_trials_num r / 3 + 1) ∧
    ((outer_folds (total_trials_num r)).map List.length).Sorted (· ≥ ·) := by
  have hperm : (tr ++ va ++ te).Perm (List.range (total_trials_num r)) := by
    have := accumulate_splits_perm n hn (outer_folds (total_trials_num r)) tr va te hacc
    rwa [outer_folds_flatten] at this
  have hnd : (tr ++ va ++ te).Nodup :=
    hperm.symm.nodup (List.nodup_range (total_trials_num r))
  obtain ⟨hnd_trva, hnd_te, hdisj1⟩ := List.nodup_append.mp hnd
  obtain ⟨hnd_tr, hnd_va, hdisj_trva⟩ := List.nodup_append.mp hnd_trva
  obtain ⟨hdisj_tr_te, hdisj_va_te⟩ := List.disjoint_append_left.mp hdisj1
  refine ⟨hperm, hdisj_trva, hdisj_tr_te, hdisj_va_te, outer_folds_len _,
    outer_folds_flatten _, ?_, ?_⟩
  · intro L hL
    rw [outer_folds_sizes] at hL
    have h3 := Nat.mod_lt (total_trials_num r) (show 0 < 3 by norm_num)
    simp only [List.mem_cons, List.not_mem_nil, or_false] at hL
    rcases hL with h | h | h <;> (subst h; split_ifs <;> omega)
  · rw [outer_folds_sizes]
    have h3 := Nat.mod_lt (total_trials_num r) (show 0 < 3 by norm_num)
    refine List.Pairwise.cons ?_ (List.Pairwise.cons ?_ (List.Pairwise.cons ?_ List.Pairwise.nil))
    · intro b hb
      simp only [List.mem_cons, List.not_mem_nil, or_false] at hb
      rcases hb with h | h <;> (subst h; simp only [ge_iff_le]; split_ifs <;> omega)
    · intro b hb
      simp only [List.mem_cons, List.not_mem_nil, or_false] at hb
      subst hb
      simp only [ge_iff_le]
      split_ifs <;> omega
    · intro b hb
      exact absurd hb (List.not_mem_nil b)

/-- C3 counterexample: the claim quantifies over every recording with a
non-empty behavior array, but on a recording with a single trial the inner
`KFold(n_splits=3)` raises the sklearn n_splits error before any train/valid/
test lists exist, so no partition of the trial range is produced. -/
theorem C3_counterexample :
    0 < rcTiny.index.length ∧
    total_trials_num rcTiny = 1 ∧
    (accumulate_splits 0 (outer_folds (total_trials_num rcTiny))).isOk = false ∧
    Recording.splitRun rcTiny 0 "train" = .error
      "Cannot have number of splits n_splits=3 greater than the number of samples: n_samples=1." := by
  refine ⟨by decide, by rfl, by rfl, by rfl⟩

/-- C3 witness: the amended theorem applied to the 17-step alternating
recording (9 trials) with fold_index 0. -/
theorem C3_witness :
    (([1, 2, 4, 5, 7, 8] ++ [] ++ [0, 3, 6] : List Nat)).Perm
      (List.range (total_trials_num rc17)) ∧
    ([1, 2, 4, 5, 7, 8] : List Nat).Disjoint [] ∧
    ([1, 2, 4, 5, 7, 8] : List Nat).Disjoint [0, 3, 6] ∧
    ([] : List Nat).Disjoint [0, 3, 6] ∧
    (outer_folds (total_trials_num rc17)).length = 3 ∧
    (outer_folds (total_trials_num rc17)).flatten = List.range (total_trials_num rc17) ∧
    (∀ L ∈ (outer_folds (total_trials_num rc17)).map List.length,
        total_trials_num rc17 / 3 ≤ L ∧ L ≤ total_trials_num rc17 / 3 + 1) ∧
    ((outer_folds (total_trials_num rc17)).map List.length).Sorted (· ≥ ·) :=
  C3_partition rc17 0 (by decide) [1, 2, 4, 5, 7, 8] [] [0, 3, 6] (by rfl)

/-! ### The trial-boundary list -/

lemma oddIdx_sublist : ∀ (l : List γ), (oddIdx l).Sublist l
  | [] => by simp [oddIdx]
  | [_] => by simp [oddIdx]
  | a :: b :: rest => by
    simp only [oddIdx]
    exact List.Sublist.cons a (List.Sublist.cons₂ b (oddIdx_sublist rest))

lemma mem_oddIdx_of_cons : ∀ (a : γ) (l : List γ) (x : γ), x ∈ oddIdx (a :: l) → x ∈ l
  | _, [], x, h => by simp [oddIdx] at h
  | _, b :: rest, x, h => by
    simp only [oddIdx, List.mem_cons] at h
    rcases h with h | h
    · exact h ▸ List.mem_cons_self b rest
    · exact List.mem_cons_of_mem b ((oddIdx_sublist rest).subset h)

lemma direction_change_idx_sorted (d : List Int) :
    (direction_change_idx d).Sorted (· < ·) :=
  List.Pairwise.sublist (List.filter_sublist _) (List.sorted_lt_range _)

lemma direction_change_idx_lt (d : List Int) (x : Nat)
    (hx : x ∈ direction_change_idx d) : x < d.length - 1 := by
  have := (List.mem_filter.mp hx).1
  exact List.mem_range.mp this

lemma oddIdx_direction_change_pos (d : List Int) (x : Nat)
    (hx : x ∈ oddIdx (direction_change_idx d)) : 0 < x := by
  cases hc : direction_change_idx d with
  | nil => rw [hc] at hx; simp [oddIdx] at hx
  | cons c ct =>
    rw [hc] at hx
    have hxt : x ∈ ct := mem_oddIdx_of_cons c ct x hx
    have hsorted := direction_change_idx_sorted d
    rw [hc, List.sorted_cons] at hsorted
    have := hsorted.1 x hxt
    omega

lemma trial_change_idx_sorted (r : Recording α β) (hne : 0 < r.index.length) :
    (trial_change_idx r).Sorted (· < ·) := by
  have hdlen : (r.index.map Prod.snd).length = r.index.length := List.length_map _ _
  rw [trial_change_idx, List.sorted_cons]
  constructor
  · intro b hb
    rcases List.mem_append.mp hb with h | h
    · exact oddIdx_direction_change_pos _ b h
    · simp only [List.mem_singleton] at h
      omega
  · refine List.pairwise_append.mpr ⟨?_, List.pairwise_singleton _ _, ?_⟩
    · exact List.Pairwise.sublist (oddIdx_sublist _) (direction_change_idx_sorted _)
    · intro x hx y hy
      simp only [List.mem_singleton] at hy
      subst hy
      have := direction_change_idx_lt _ x ((oddIdx_sublist _).subset hx)
      omega

/-- C4: for every recording with a non-empty behavior array, the computed
trial-boundary list is strictly increasing, starts at 0, ends at the
recording length, and has length `trial count + 1`, so the boundaries
partition the recording with no gaps or overlaps. -/
theorem C4_boundaries (r : Recording α β) (hne : 0 < r.index.length) :
    (trial_change_idx r).Sorted (· < ·) ∧
    (trial_change_idx r).head? = some 0 ∧
    (trial_change_idx r).getLast? = some r.index.length ∧
    (trial_change_idx r).length = total_trials_num r + 1 := by
  refine ⟨trial_change_idx_sorted r hne, rfl, ?_, ?_⟩
  · rw [trial_change_idx]
    rw [show (0 : Nat) :: (oddIdx (direction_change_idx (r.index.map Prod.snd)) ++ [r.index.length]) =
      ((0 : Nat) :: oddIdx (direction_change_idx (r.index.map Prod.snd))) ++ [r.index.length] from rfl]
    exact List.getLast?_concat _
  · rw [total_trials_num]
    have : 1 ≤ (trial_change_idx r).length := by
      rw [trial_change_idx]
      simp
    omega

/-- C4 witness: the boundary theorem applied to the 17-step alternating
recording. -/
theorem C4_witness :
    (trial_change_idx rc17).Sorted (· < ·) ∧
    (trial_change_idx rc17).head? = some 0 ∧
    (trial_change_idx rc17).getLast? = some rc17.index.length ∧
    (trial_change_idx rc17).length = total_trials_num rc17 + 1 :=
  C4_boundaries rc17 (by decide)

/-! ### The concrete boundary scenario of the spec -/

/-- C8: on the recording whose direction column is `[+1,+1,-1,-1,+1,+1,-1]`,
the reversal detection finds raw change points `{1,3,5}`, taking every
second element from offset 1 gives `{3}`, the boundary list is `[0,3,7]`,
and there are 2 trials of lengths 3 and 4. -/
theorem C8_scenario :
    rc7.index.map Prod.snd = [1, 1, -1, -1, 1, 1, -1] ∧
    direction_change_idx (rc7.index.map Prod.snd) = [1, 3, 5] ∧
    oddIdx (direction_change_idx (rc7.index.map Prod.snd)) = [3] ∧
    trial_change_idx rc7 = [0, 3, 7] ∧
    total_trials_num rc7 = 2 ∧
    (List.range (total_trials_num rc7)).map
      (fun i => (trial_change_idx rc7).getD (i + 1) 0 - (trial_change_idx rc7).getD i 0) =
      [3, 4] := by
  decide

/-! ### Slice gluing and reassembly of the full recording -/

lemma slice_glue (m : List γ) (a b : Nat) (hab : a ≤ b) :
    (m.take b).drop a ++ m.drop b = m.drop a := by
  rcases le_or_lt a (m.take b).length with h | h
  · conv_rhs => rw [← List.take_append_drop b m]
    rw [List.drop_append_eq_append_drop]
    have h0 : a - (m.take b).length = 0 := by omega
    rw [h0, List.drop_zero]
  · rw [List.length_take] at h
    have h1 : (m.take b).drop a = [] :=
      List.drop_eq_nil_of_le (by rw [List.length_take]; omega)
    have h2 : m.drop b = [] := List.drop_eq_nil_of_le (by omega)
    have h3 : m.drop a = [] := List.drop_eq_nil_of_le (by omega)
    simp [h1, h2, h3]

lemma pySlice_glue (l : List γ) (a b c : Nat) (hab : a ≤ b) (hbc : b ≤ c) :
    pySlice l a b ++ pySlice l b c = pySlice l a c := by
  unfold pySlice
  have htb : l.take b = (l.take c).take b := by
    rw [List.take_take, Nat.min_eq_left hbc]
  rw [htb]
  exact slice_glue (l.take c) a b hab

lemma gatherTrials_cons (l : List γ) (bs : List Nat) (t : Nat) (ts : List Nat) :
    gatherTrials l bs (t :: ts) =
      pySlice l (bs.getD t 0) (bs.getD (t + 1) 0) ++ gatherTrials l bs ts := rfl

lemma gatherTrials_shift (l : List γ) (a : Nat) (bs : List Nat) (ts : List Nat) :
    gatherTrials l (a :: bs) (ts.map Nat.succ) = gatherTrials l bs ts := by
  unfold gatherTrials
  rw [List.map_map]
  congr 1

lemma chain_le_last : ∀ (mid : List Nat) (b z : Nat),
    List.Chain (· ≤ ·) b (mid ++ [z]) → b ≤ z
  | [], b, z, h => by
    cases h with
    | cons hbz _ => exact hbz
  | c :: mid', b, z, h => by
    cases h with
    | cons hbc hch => exact le_trans hbc (chain_le_last mid' c z hch)

lemma gather_range : ∀ (mid : List Nat) (l : List γ) (a z : Nat),
    List.Chain (· ≤ ·) a (mid ++ [z]) →
    gatherTrials l (a :: (mid ++ [z])) (List.range (mid.length + 1)) = pySlice l a z
  | [], l, a, z, _ => by
    have h1 : List.range (([] : List Nat).length + 1) = [0] := rfl
    simp only [List.nil_append] at h1 ⊢
    rw [h1, gatherTrials_cons]
    simp [gatherTrials, List.getD_cons_zero, List.getD_cons_succ]
  | b :: mid', l, a, z, hch => by
    have hab : a ≤ b := by cases hch with | cons h _ => exact h
    have hch' : List.Chain (· ≤ ·) b (mid' ++ [z]) := by
      cases hch with | cons _ h => exact h
    have hbz : b ≤ z := chain_le_last mid' b z hch'
    have hlen : (b :: mid').length + 1 = (mid'.length + 1) + 1 := by simp
    rw [hlen, List.range_succ_eq_map, List.cons_append, gatherTrials_cons]
    simp only [List.getD_cons_zero, List.getD_cons_succ]
    rw [gatherTrials_shift]
    rw [gather_range mid' l b z hch']
    exact pySlice_glue l a b z hab hbz

lemma trial_chain (r : Recording α β) (hne : 0 < r.index.length) :
    List.Chain (· ≤ ·) 0
      (oddIdx (direction_change_idx (r.index.map Prod.snd)) ++ [r.index.length]) := by
  have hs : (trial_change_idx r).Sorted (· < ·) := (trial_change_idx_sorted r hne)
  rw [trial_change_idx] at hs
  exact List.chain_iff_pairwise.mpr (hs.imp (fun h => le_of_lt h))

lemma gather_all (r : Recording α β) (l : List γ) (hne : 0 < r.index.length)
    (hlen : l.length = r.index.length) :
    gatherTrials l (trial_change_idx r) (List.range (total_trials_num r)) = l := by
  have hT : total_trials_num r =
      (oddIdx (direction_change_idx (r.index.map Prod.snd))).length + 1 := by
    rw [total_trials_num, trial_change_idx]
    simp
  rw [hT, trial_change_idx, gather_range _ l 0 r.index.length (trial_chain r hne),
    pySlice, List.drop_zero, ← hlen, List.take_length]

lemma splitRun_ok_inv (r : Recording α β) (n : Nat) (name : String) (s : SplitOut α β)
    (h : r.splitRun n name = .ok s) :
    ∃ tr va te,
      accumulate_splits n (outer_folds (total_trials_num r)) = .ok (tr, va, te) ∧
      resolveSplitName name tr va te (total_trials_num r) = .ok s.selected ∧
      s.selected.isEmpty = false ∧
      s.neural = gatherTrials r.neural (trial_change_idx r) s.selected ∧
      s.index = gatherTrials r.index (trial_change_idx r) s.selected ∧
      s.concat_idx = concat_idx_of (trial_change_idx r) s.selected := by
  simp only [Recording.splitRun] at h
  split at h
  · exact absurd h (by simp)
  · rename_i tr va te hacc
    split at h
    · exact absurd h (by simp)
    · rename_i trials hres
      split at h
      · exact absurd h (by simp)
      · rename_i hemp
        simp only [Except.ok.injEq] at h
        subst h
        exact ⟨tr, va, te, hacc, hres, by simpa using hemp, rfl, rfl, rfl⟩

/-- C1 (corrected): whenever `_split` succeeds, the neural and behavior
tensors are reassembled by concatenating exactly the row segments of the
selected trials in the order of that list, and the split name resolves as:
"train" to the accumulated train list, "valid" to the valid list, "test" to
the test list, "all" to the full ascending trial range (reproducing the
whole recording), and "wo_test" to the train list followed by the valid
list in fold-accumulation order — a concatenation, not the ascending union
claimed by the spec. -/
theorem C1_resolution (r : Recording α β) (n : Nat) (name : String) (s : SplitOut α β)
    (hne : 0 < r.index.length) (hlen : r.neural.length = r.index.length)
    (h : r.splitRun n name = .ok s) :
    s.neural = gatherTrials r.neural (trial_change_idx r) s.selected ∧
    s.index = gatherTrials r.index (trial_change_idx r) s.selected ∧
    (name = "train" → s.selected = (split_lists (total_trials_num r) n).1) ∧
    (name = "valid" → s.selected = (split_lists (total_trials_num r) n).2.1) ∧
    (name = "test" → s.selected = (split_lists (total_trials_num r) n).2.2) ∧
    (name = "wo_test" → s.selected =
      (split_lists (total_trials_num r) n).1 ++ (split_lists (total_trials_num r) n).2.1) ∧
    (name = "all" → s.selected = List.range (total_trials_num r) ∧
      s.neural = r.neural ∧ s.index = r.index) := by
  obtain ⟨tr, va, te, hacc, hres, hemp, hn, hi, hc⟩ := splitRun_ok_inv r n name s h
  have hsl : split_lists (total_trials_num r) n = (tr, va, te) := by
    rw [split_lists, hacc]
    rfl
  refine ⟨hn, hi, ?_, ?_, ?_, ?_, ?_⟩
  · rintro rfl
    simp [resolveSplitName] at hres
    rw [hsl, ← hres]
  · rintro rfl
    simp [resolveSplitName] at hres
    rw [hsl, ← hres]
  · rintro rfl
    simp [resolveSplitName] at hres
    rw [hsl, ← hres]
  · rintro rfl
    simp [resolveSplitName] at hres
    rw [hsl, ← hres]
  · rintro rfl
    simp [resolveSplitName] at hres
    refine ⟨hres.symm, ?_, ?_⟩
    · rw [hn, ← hres]
      exact gather_all r r.neural hne hlen
    · rw [hi, ← hres]
      exact gather_all r r.index hne rfl

/-- C1 counterexample: on the 35-step alternating recording (18 trials)
with fold_index 0, the "wo_test" selection is the train list followed by
the valid list, `[2,...,17,1,7,13]`, which is not in ascending order, so
"wo_test" does not select "the ascending union of the train and valid
lists" as the claim states. -/
theorem C1_counterexample :
    (Recording.splitRun rc35 0 "wo_test").map SplitOut.selected =
      .ok [2, 3, 4, 5, 8, 9, 10, 11, 14, 15, 16, 17, 1, 7, 13] ∧
    ¬ ([2, 3, 4, 5, 8, 9, 10, 11, 14, 15, 16, 17, 1, 7, 13] : List Nat).Sorted (· < ·) ∧
    split_lists (total_trials_num rc35) 0 =
      ([2, 3, 4, 5, 8, 9, 10, 11, 14, 15, 16, 17], [1, 7, 13], [0, 6, 12]) := by
  refine ⟨by rfl, by decide, by rfl⟩

/-- C1 witness: the corrected resolution theorem applied to the 17-step
alternating recording with split name "all". -/
theorem C1_witness :
    out17all.neural = gatherTrials rc17.neural (trial_change_idx rc17) out17all.selected ∧
    out17all.index = gatherTrials rc17.index (trial_change_idx rc17) out17all.selected ∧
    ("all" = "train" → out17all.selected = (split_lists (total_trials_num rc17) 0).1) ∧
    ("all" = "valid" → out17all.selected = (split_lists (total_trials_num rc17) 0).2.1) ∧
    ("all" = "test" → out17all.selected = (split_lists (total_trials_num rc17) 0).2.2) ∧
    ("all" = "wo_test" → out17all.selected =
      (split_lists (total_trials_num rc17) 0).1 ++ (split_lists (total_trials_num rc17) 0).2.1) ∧
    ("all" = "all" → out17all.selected = List.range (total_trials_num rc17) ∧
      out17all.neural = rc17.neural ∧ out17all.index = rc17.index) :=
  C1_resolution rc17 0 "all" out17all (by decide) (by decide) (by rfl)

/-! ### Error handling of the split-name dispatch -/

/-- C2 (corrected): when the inner 3-fold CV has succeeded, an unrecognized
split name makes `_split` raise the `ValueError` whose message is
quoting the rejected name and saying to use train, valid or test — naming
only three of the five accepted values, not the full allowed set — and the
error is raised before the stored tensors are reassigned, so the recording
is left unmodified. -/
theorem C2_error (r : Recording α β) (n : Nat) (name : String)
    (tva : List Nat × List Nat × List Nat)
    (hacc : accumulate_splits n (outer_folds (total_trials_num r)) = .ok tva)
    (hbad : name ∉ validSplitNames) :
    r.splitRun n name = .error (invalidSplitMsg name) ∧
    (r.applySplit n name).1 = r ∧
    (r.applySplit n name).2 = some (invalidSplitMsg name) := by
  simp only [validSplitNames, List.mem_cons, List.not_mem_nil, or_false, not_or] at hbad
  obtain ⟨h1, h2, h3, h4, h5⟩ := hbad
  obtain ⟨tr, va, te⟩ := tva
  have hres : resolveSplitName name tr va te (total_trials_num r) =
      .error (invalidSplitMsg name) := by
    simp [resolveSplitName, h1, h2, h3, h4, h5]
  have hrun : r.splitRun n name = .error (invalidSplitMsg name) := by
    simp only [Recording.splitRun, hacc, hres]
  exact ⟨hrun, by simp [Recording.applySplit, hrun], by simp [Recording.applySplit, hrun]⟩

/-- C2 counterexample: the claim says the error message names the allowed
set {"train","valid","test","all","wo_test"}, but the message produced for
"bogus" contains neither "all" nor "wo_test". -/
theorem C2_counterexample :
    Recording.splitRun rc17 0 "bogus" =
      .error "\x27bogus\x27 is not a valid split. Use \x27train\x27, \x27valid\x27 or \x27test\x27" ∧
    ¬ ("all".toList <:+: "\x27bogus\x27 is not a valid split. Use \x27train\x27, \x27valid\x27 or \x27test\x27".toList) ∧
    ¬ ("wo_test".toList <:+: "\x27bogus\x27 is not a valid split. Use \x27train\x27, \x27valid\x27 or \x27test\x27".toList) := by
  refine ⟨by rfl, by decide, by decide⟩

/-- C2 witness: the corrected error theorem applied to the 17-step
alternating recording and the name "bogus". -/
theorem C2_witness :
    Recording.splitRun rc17 0 "bogus" = .error (invalidSplitMsg "bogus") ∧
    (Recording.applySplit rc17 0 "bogus").1 = rc17 ∧
    (Recording.applySplit rc17 0 "bogus").2 = some (invalidSplitMsg "bogus") :=
  C2_error rc17 0 "bogus" ([1, 2, 4, 5, 7, 8], [], [0, 3, 6]) (by rfl) (by decide)

/-! ### The inner (train, remainder) pair and its bisection -/

/-- C5 (corrected): the pair selected by fold_index from the unshuffled
3-fold CV over an outer fold consists of a train part and a remainder part
that together are a permutation of the fold; the remainder is the
fold_index-th of three consecutive near-equal sections and so comprises
one third of the fold (within one element) — not 2/3 as the spec claims
(the sklearn pair is (train, test) with the test fold of size ~1/3). -/
theorem C5_pair (l : List Nat) (n : Nat) (hn : n < 3)
    (pairs : List (List Nat × List Nat)) (hk : kfold_pairs l = .ok pairs) :
    (train_trial pairs n ++ val_test_trial pairs n).Perm l ∧
    val_test_trial pairs n = (np_array_split l 3).getD n [] ∧
    (val_test_trial pairs n).length =
      (if n < l.length % 3 then l.length / 3 + 1 else l.length / 3) ∧
    3 * (val_test_trial pairs n).length ≤ l.length + 2 ∧
    l.length ≤ 3 * (val_test_trial pairs n).length + 2 ∧
    (train_trial pairs n).length + (val_test_trial pairs n).length = l.length := by
  have hperm : (train_trial pairs n ++ val_test_trial pairs n).Perm l :=
    kfold_pair_perm l n hn pairs hk
  have hvt : val_test_trial pairs n = (np_array_split l 3).getD n [] := by
    rw [val_test_trial, kfold_getD l n hn pairs hk]
  have hlen : (val_test_trial pairs n).length =
      (if n < l.length % 3 then l.length / 3 + 1 else l.length / 3) := by
    rw [hvt]
    exact np_array_split3_getD_length l n hn
  have hmod := Nat.mod_lt l.length (show 0 < 3 by norm_num)
  refine ⟨hperm, hvt, hlen, ?_, ?_, ?_⟩
  · rw [hlen]; split_ifs <;> omega
  · rw [hlen]; split_ifs <;> omega
  · have h := hperm.length_eq
    rw [List.length_append] at h
    omega

/-- C5 counterexample: the first outer fold of the 9-trial recording is
`[0,1,2]`; for fold_index 0 the remainder part is `[0]`, a single trial —
one third of the fold, not the 2/3 the claim states. -/
theorem C5_counterexample :
    [0, 1, 2] ∈ outer_folds (total_trials_num rc17) ∧
    kfold_pairs ([0, 1, 2] : List Nat) = .ok kp3 ∧
    val_test_trial kp3 0 = [0] ∧
    (val_test_trial kp3 0).length * 3 ≠ ([0, 1, 2] : List Nat).length * 2 := by
  refine ⟨by decide, by rfl, by rfl, by decide⟩

/-- C5 witness: the corrected pair theorem applied to the fold `[0,1,2]`
with fold_index 0. -/
theorem C5_witness :
    (train_trial kp3 0 ++ val_test_trial kp3 0).Perm [0, 1, 2] ∧
    val_test_trial kp3 0 = (np_array_split ([0, 1, 2] : List Nat) 3).getD 0 [] ∧
    (val_test_trial kp3 0).length =
      (if 0 < ([0, 1, 2] : List Nat).length % 3
        then ([0, 1, 2] : List Nat).length / 3 + 1 else ([0, 1, 2] : List Nat).length / 3) ∧
    3 * (val_test_trial kp3 0).length ≤ ([0, 1, 2] : List Nat).length + 2 ∧
    ([0, 1, 2] : List Nat).length ≤ 3 * (val_test_trial kp3 0).length + 2 ∧
    (train_trial kp3 0).length + (val_test_trial kp3 0).length = ([0, 1, 2] : List Nat).length :=
  C5_pair [0, 1, 2] 0 (by decide) kp3 (by rfl)

/-- C6: for each outer fold, the selected remainder part is bisected in an
index-preserving way by `np.array_split(·, 2)`: the first half (with the
extra element when the length is odd) extends the accumulated test list,
the second half extends the accumulated valid list. -/
theorem C6_bisect (fold : List Nat) (rest : List (List Nat)) (n : Nat)
    (pairs : List (List Nat × List Nat)) (tr va te tr' va' te' : List Nat)
    (hk : kfold_pairs fold = .ok pairs)
    (hrest : accumulate_splits n rest = .ok (tr', va', te'))
    (hall : accumulate_splits n (fold :: rest) = .ok (tr, va, te)) :
    te = (val_test_trial pairs n).take (((val_test_trial pairs n).length + 1) / 2) ++ te' ∧
    va = (val_test_trial pairs n).drop (((val_test_trial pairs n).length + 1) / 2) ++ va' ∧
    (val_test_trial pairs n).take (((val_test_trial pairs n).length + 1) / 2) ++
      (val_test_trial pairs n).drop (((val_test_trial pairs n).length + 1) / 2) =
      val_test_trial pairs n ∧
    ((val_test_trial pairs n).take (((val_test_trial pairs n).length + 1) / 2)).length =
      ((val_test_trial pairs n).length + 1) / 2 ∧
    ((val_test_trial pairs n).drop (((val_test_trial pairs n).length + 1) / 2)).length =
      (val_test_trial pairs n).length / 2 ∧
    ((val_test_trial pairs n).length % 2 = 1 →
      ((val_test_trial pairs n).take (((val_test_trial pairs n).length + 1) / 2)).length =
        ((val_test_trial pairs n).drop (((val_test_trial pairs n).length + 1) / 2)).length + 1) := by
  obtain ⟨pairs2, trs, vas, tes, hk2, hrest2, htr, hva, hte⟩ :=
    accumulate_splits_cons_inv n fold rest tr va te hall
  rw [hk] at hk2
  injection hk2 with hp
  subst hp
  rw [hrest] at hrest2
  simp only [Except.ok.injEq, Prod.mk.injEq] at hrest2
  obtain ⟨e1, e2, e3⟩ := hrest2
  subst e1; subst e2; subst e3
  rw [np_array_split2_eq] at hva hte
  have h4 : ((val_test_trial pairs n).take (((val_test_trial pairs n).length + 1) / 2)).length =
      ((val_test_trial pairs n).length + 1) / 2 := by
    rw [List.length_take]
    omega
  have h5 : ((val_test_trial pairs n).drop (((val_test_trial pairs n).length + 1) / 2)).length =
      (val_test_trial pairs n).length / 2 := by
    rw [List.length_drop]
    omega
  exact ⟨hte, hva, List.take_append_drop _ _, h4, h5, fun hodd => by rw [h4, h5]; omega⟩

/-- C6 witness: the bisection theorem applied to the single fold `[0,1,2]`
with fold_index 0 (remainder `[0]` of odd length 1: test gets the extra
element, valid is empty). -/
theorem C6_witness :
    [0] = (val_test_trial kp3 0).take (((val_test_trial kp3 0).length + 1) / 2) ++ [] ∧
    [] = (val_test_trial kp3 0).drop (((val_test_trial kp3 0).length + 1) / 2) ++ [] ∧
    (val_test_trial kp3 0).take (((val_test_trial kp3 0).length + 1) / 2) ++
      (val_test_trial kp3 0).drop (((val_test_trial kp3 0).length + 1) / 2) =
      val_test_trial kp3 0 ∧
    ((val_test_trial kp3 0).take (((val_test_trial kp3 0).length + 1) / 2)).length =
      ((val_test_trial kp3 0).length + 1) / 2 ∧
    ((val_test_trial kp3 0).drop (((val_test_trial kp3 0).length + 1) / 2)).length =
      (val_test_trial kp3 0).length / 2 ∧
    ((val_test_trial kp3 0).length % 2 = 1 →
      ((val_test_trial kp3 0).take (((val_test_trial kp3 0).length + 1) / 2)).length =
        ((val_test_trial kp3 0).drop (((val_test_trial kp3 0).length + 1) / 2)).length + 1) :=
  C6_bisect [0, 1, 2] [] 0 kp3 [1, 2] [] [0] [] [] [] (by rfl) (by rfl) (by rfl)

/-! ### Discontinuity offsets -/

lemma cumsum_getD (l : List Nat) (j : Nat) (hj : j < l.length) :
    (cumsum l).getD j 0 = (l.take (j + 1)).sum := by
  rw [cumsum, List.getD_eq_getElem _ _ (by simpa using hj), List.getElem_map,
    List.getElem_range]

lemma mask_indexed : ∀ (t c : List Nat), c.length = t.length →
    ((c.zip (t.zip t.tail)).filter (fun p => p.2.1 + 1 != p.2.2)).map Prod.fst =
      ((List.range (t.length - 1)).filter
          (fun j => t.getD j 0 + 1 != t.getD (j + 1) 0)).map (fun j => c.getD j 0)
  | [], c, hlen => by simp
  | [x], c, hlen => by simp
  | x :: y :: ts, c, hlen => by
    match c, hlen with
    | d :: cs, hlen =>
      have hlen' : cs.length = (y :: ts).length := by simpa using hlen
      have ih := mask_indexed (y :: ts) cs hlen'
      have hr : List.range ((x :: y :: ts).length - 1) =
          0 :: (List.range ((y :: ts).length - 1)).map Nat.succ := by
        simp only [List.length_cons, Nat.add_sub_cancel]
        exact List.range_succ_eq_map _
      have htail : ((cs.zip ((y :: ts).zip ts)).filter (fun p => p.2.1 + 1 != p.2.2)).map Prod.fst =
          ((List.range ((y :: ts).length - 1)).filter
              (fun j => (y :: ts).getD j 0 + 1 != (y :: ts).getD (j + 1) 0)).map
            (fun j => cs.getD j 0) := by
        simpa using ih
      rw [hr]
      simp only [List.tail_cons, List.zip_cons_cons]
      by_cases hxy : (x + 1 != y) = true
      · simp only [List.filter_cons, List.getD_cons_zero, List.getD_cons_succ, hxy,
          if_true, List.map_cons]
        congr 1
        rw [List.filter_map, List.map_map]
        simp only [Function.comp_def, List.getD_cons_succ]
        simpa using htail
      · have hxy' : (x + 1 != y) = false := by simpa using hxy
        simp only [List.filter_cons, List.getD_cons_zero, List.getD_cons_succ, hxy',
          Bool.false_eq_true, if_false]
        rw [List.filter_map, List.map_map]
        simp only [Function.comp_def, List.getD_cons_succ]
        simpa using htail

/-- C7: whenever a split succeeds, the stored `concat_idx` offsets are
exactly the cumulative concatenated-segment lengths at the positions where
the selected trial-index sequence is non-consecutive (the next trial index
differs from the previous plus 1); positions where consecutive selected
trials are adjacent in the original recording are not marked. -/
theorem C7_concat_idx (r : Recording α β) (n : Nat) (name : String) (s : SplitOut α β)
    (h : r.splitRun n name = .ok s) :
    s.concat_idx =
      ((List.range (s.selected.length - 1)).filter
          (fun j => s.selected.getD j 0 + 1 != s.selected.getD (j + 1) 0)).map
        (fun j => ((s.selected.take (j + 1)).map
          (fun i => (trial_change_idx r).getD (i + 1) 0 - (trial_change_idx r).getD i 0)).sum) := by
  obtain ⟨tr, va, te, hacc, hres, hemp, hn, hi, hc⟩ := splitRun_ok_inv r n name s h
  rw [hc]
  simp only [concat_idx_of]
  have hclen : (cumsum (s.selected.map
      (fun i => (trial_change_idx r).getD (i + 1) 0 - (trial_change_idx r).getD i 0))).length =
      s.selected.length := by
    simp [cumsum]
  rw [mask_indexed s.selected _ hclen]
  apply List.map_congr_left
  intro j hj
  have hjr : j < s.selected.length - 1 := List.mem_range.mp (List.mem_filter.mp hj).1
  have hjlt : j < (s.selected.map
      (fun i => (trial_change_idx r).getD (i + 1) 0 - (trial_change_idx r).getD i 0)).length := by
    rw [List.length_map]
    omega
  rw [cumsum_getD _ j hjlt, ← List.map_take]

/-- C7 witness: the discontinuity-offset theorem applied to the 17-step
alternating recording with split name "test" (selected trials `[0,3,6]`,
offsets `[1,3]`). -/
theorem C7_witness :
    out17test.concat_idx =
      ((List.range (out17test.selected.length - 1)).filter
          (fun j => out17test.selected.getD j 0 + 1 != out17test.selected.getD (j + 1) 0)).map
        (fun j => ((out17test.selected.take (j + 1)).map
          (fun i => (trial_change_idx rc17).getD (i + 1) 0 - (trial_change_idx rc17).getD i 0)).sum) :=
  C7_concat_idx rc17 0 "test" out17test (by rfl)

/-! ### The decode neighbor sweep -/

/-- C9 (corrected): `decode` sweeps the neighbor count over exactly
`np.power(np.linspace(1, 10, 6, dtype=int), 2) = [1,4,16,36,64,100]` — the
squares of `[1,2,4,6,8,10]`, not the squares of 1..6 — and for each swept
value records the median absolute error on the position column (column 0)
and the R² score. -/
theorem C9_decode (predict : Int → List (List ℚ)) (score : Int → ℚ)
    (y : List (List ℚ)) (n : Int) (hn : n ∈ decode_nn) :
    decode_nn = [1, 4, 16, 36, 64, 100] ∧
    (decode predict score y).map Prod.fst =
      ["n1_err", "n1_r2", "n4_err", "n4_r2", "n16_err", "n16_r2",
       "n36_err", "n36_r2", "n64_err", "n64_r2", "n100_err", "n100_r2"] ∧
    ("n" ++ toString n ++ "_err",
      np_median (List.zipWith (fun p yr => |p.getD 0 0 - yr.getD 0 0|) (predict n) y)) ∈
        decode predict score y ∧
    ("n" ++ toString n ++ "_r2", score n) ∈ decode predict score y := by
  refine ⟨by decide, by rfl, ?_, ?_⟩
  · exact List.mem_flatMap.mpr ⟨n, hn, by simp⟩
  · exact List.mem_flatMap.mpr ⟨n, hn, by simp⟩

/-- C9 counterexample: the sweep values {1,4,9,16,25,36} of the claim are wrong:
9 and 25 are never used as neighbor counts; the actual list is
[1,4,16,36,64,100] because `np.linspace(1,10,6,dtype=int)` truncates
[1,2.8,4.6,6.4,8.2,10] to [1,2,4,6,8,10] before squaring. -/
theorem C9_counterexample :
    (9 : Int) ∉ decode_nn ∧ (25 : Int) ∉ decode_nn ∧
    decode_nn ≠ [1, 4, 9, 16, 25, 36] ∧
    decode_nn = [1, 4, 16, 36, 64, 100] := by decide

/-- C9 witness: the corrected decode theorem applied to the trivial
predictor and score at neighbor count 1. -/
theorem C9_witness :
    decode_nn = [1, 4, 16, 36, 64, 100] ∧
    (decode (fun _ => []) (fun _ => 0) []).map Prod.fst =
      ["n1_err", "n1_r2", "n4_err", "n4_r2", "n16_err", "n16_r2",
       "n36_err", "n36_r2", "n64_err", "n64_r2", "n100_err", "n100_r2"] ∧
    ("n" ++ toString (1 : Int) ++ "_err",
      np_median (List.zipWith (fun p yr => |p.getD 0 0 - yr.getD 0 0|)
        ([] : List (List ℚ)) ([] : List (List ℚ)))) ∈ decode (fun _ => []) (fun _ => 0) [] ∧
    ("n" ++ toString (1 : Int) ++ "_r2", (0 : ℚ)) ∈ decode (fun _ => []) (fun _ => 0) [] :=
  C9_decode (fun _ => []) (fun _ => 0) [] 1 (by decide)

/-! ### The corrupted-label variant -/

lemma getD_cons_eraseIdx_perm : ∀ (l : List Nat) (k : Nat), k < l.length →
    (l.getD k 0 :: l.eraseIdx k).Perm l
  | [], k, h => by simp at h
  | x :: xs, 0, _ => by simp [List.eraseIdx]
  | x :: xs, k + 1, h => by
    have hk : k < xs.length := by simpa using h
    simp only [List.getD_cons_succ, List.eraseIdx_cons_succ]
    exact List.Perm.trans (List.Perm.swap x (xs.getD k 0) (xs.eraseIdx k))
      (List.Perm.cons x (getD_cons_eraseIdx_perm xs k hk))

lemma drawAll_perm : ∀ (fuel s : Nat) (pool : List Nat), pool.length ≤ fuel →
    (drawAll fuel s pool).Perm pool
  | 0, s, pool, h => by
    have hp : pool = [] := List.length_eq_zero.mp (Nat.le_zero.mp h)
    subst hp
    simp [drawAll]
  | f + 1, s, [], _ => by simp [drawAll]
  | f + 1, s, x :: xs, h => by
    simp only [drawAll]
    have hk : s % (x :: xs).length < (x :: xs).length := Nat.mod_lt _ (by simp)
    have hlen : ((x :: xs).eraseIdx (s % (x :: xs).length)).length ≤ f := by
      rw [List.length_eraseIdx, if_pos hk]
      simp only [List.length_cons] at h ⊢
      omega
    exact List.Perm.trans
      (List.Perm.cons _ (drawAll_perm f (rngStep s) _ hlen))
      (getD_cons_eraseIdx_perm _ _ hk)

lemma map_getD_range (l : List γ) (d : γ) :
    (List.range l.length).map (fun i => l.getD i d) = l := by
  induction l with
  | nil => simp
  | cons x xs ih =>
    rw [List.length_cons, List.range_succ_eq_map, List.map_cons, List.map_map]
    congr 1

/-- C10: the corrupted-label variant leaves the neural tensor unchanged
and replaces the behavior tensor by a row permutation of the original
(same length, same multiset of rows); the gathered tensor is a function of
the seed and the original index only, so equal seeds (and equal data)
produce identical label tensors. -/
theorem C10_corrupt [Inhabited β] (r : Recording α β) (seed : Nat) :
    (corruptDataset r seed).neural = r.neural ∧
    ((corruptDataset r seed).index).Perm r.index ∧
    (corruptDataset r seed).index.length = r.index.length ∧
    (corruptDataset r seed).index =
      (np_shuffled_range seed r.index.length).map (fun i => r.index.getD i default) := by
  have hperm : (np_shuffled_range seed r.index.length).Perm (List.range r.index.length) := by
    unfold np_shuffled_range
    exact drawAll_perm _ _ _ (by simp)
  have hmap : ((np_shuffled_range seed r.index.length).map
      (fun i => r.index.getD i default)).Perm r.index := by
    have h1 := hperm.map (fun i => r.index.getD i default)
    rwa [map_getD_range] at h1
  exact ⟨rfl, hmap, hmap.length_eq, rfl⟩

/-- C10 witness: the corruption theorem applied to the one-step recording
with seed 0. -/
theorem C10_witness :
    (corruptDataset rcTiny 0).neural = rcTiny.neural ∧
    ((corruptDataset rcTiny 0).index).Perm rcTiny.index ∧
    (corruptDataset rcTiny 0).index.length = rcTiny.index.length ∧
    (corruptDataset rcTiny 0).index =
      (np_shuffled_range 0 rcTiny.index.length).map (fun i => rcTiny.index.getD i default) :=
  C10_corrupt rcTiny 0
